import Mathlib

/-!
Verification of the compile-time event-emission core of KodrAus/antlog
(`ct/src/emit.rs`, function `expand_tokens` and its helpers).

The embedding models the merge/sort/validate pipeline over the parsed
representation of a macro invocation: the field-values before the template
literal, the holes inside the template (in rendering order), and the extra
field-values after it.  Panics in the Rust source become `Except.error`
with the panic message; the generated code is summarised by the data it
would splice (captured field-values in rendering order, the sorted
key/binding map, the target expression, and the template parts).
-/

/-- Expressions of the host language, as far as the emission core inspects
them: `path` mirrors `syn::Expr::Path` as its list of path segments; the
core treats every other expression form as opaque, so literals and a
catch-all constructor suffice. -/
inductive Expr where
  | path (segments : List String)
  | lit (value : Int)
  | other (description : String)
  deriving DecidableEq, Repr

/-- Mirror of `syn::Path::get_ident`: a path is a plain identifier exactly
when it consists of a single segment. -/
def pathIdent : List String → Option String
  | [s] => some s
  | _ => none

/-- Mirror of `syn::FieldValue` as used by `expand_tokens`: attributes, the
member (key) name, and the value expression. -/
structure FieldValue where
  attrs : List String
  key : String
  expr : Expr
  deriving DecidableEq, Repr

/-- Modelled from the spec: `FieldValueExt::key_name` is declared in
`ct/src/capture.rs`, which is not under `src/`.  Per the field-declaration
grammar (spec section 6), the key of a declaration is the member name of a
`name: expr` pair, or the name itself for a bare declaration, so it is the
member of the `syn::FieldValue`. -/
def FieldValue.key_name (fv : FieldValue) : String := fv.key

/-- A part of the parsed template (spec TemplatePart), as produced by `to_rt_tokens`. -/
inductive TemplatePart where
  | text (s : String)
  | hole (name : String)
  deriving DecidableEq, Repr

/-- Modelled from the spec: the parse result of `fv_template::ct::Template`
(the template crate is an external collaborator, not under `src/`).
`before`, `holes` and `after` are the field-values before the template
literal, the holes inside it in rendering order, and the extra field-values
after it; `parts` is the literal/hole alternation the runtime template is
built from (spec sections 4.1 and 6). -/
structure Template where
  before : List FieldValue
  parts : List TemplatePart
  holes : List FieldValue
  after : List FieldValue
  deriving DecidableEq, Repr

/-- Lexicographic comparison of character lists by unicode scalar value. -/
def charListLt : List Char → List Char → Bool
  | _, [] => false
  | [], _ :: _ => true
  | c :: cs, d :: ds =>
    if c.toNat < d.toNat then true
    else if d.toNat < c.toNat then false
    else charListLt cs ds

/-- The strict order on `String` keys used by `BTreeMap<String, _>`: Rust
compares strings byte-wise, which for UTF-8 agrees with the lexicographic
order on unicode scalar values. -/
def strLt (a b : String) : Bool := charListLt a.data b.data

/-- Lookup in a `BTreeMap` modelled as an association list kept sorted by
key (`BTreeMap::get`). -/
def btreeGet {A : Type} (k : String) : List (String × A) → Option A
  | [] => none
  | (k2, v) :: rest => if k = k2 then some v else btreeGet k rest

/-- Insertion into a `BTreeMap` modelled as a sorted association list
(`BTreeMap::insert`): an existing entry for the key is replaced. -/
def btreeInsert {A : Type} (k : String) (v : A) : List (String × A) → List (String × A)
  | [] => [(k, v)]
  | (k2, v2) :: rest =>
    if strLt k k2 then (k, v) :: (k2, v2) :: rest
    else if k = k2 then (k, v) :: rest
    else (k2, v2) :: btreeInsert k v rest

/-- Removal from a `BTreeMap` modelled as a sorted association list
(`BTreeMap::remove`, which drops the entry for the key if present). -/
def btreeErase {A : Type} (k : String) : List (String × A) → List (String × A)
  | [] => []
  | (k2, v2) :: rest => if k = k2 then rest else (k2, v2) :: btreeErase k rest

/-- The `extra_field_values` map of `expand_tokens`: the after-template
field-values collected into a `BTreeMap` keyed by `key_name`
(`FromIterator` inserts in iteration order, so a later duplicate key
replaces an earlier one). -/
def collectExtras (l : List FieldValue) : List (String × FieldValue) :=
  l.foldl (fun m fv => btreeInsert fv.key_name fv m) []

/-- One entry of the `field_values` vector of `expand_tokens`: the
attributes lifted out of the field-value followed by
`emit::ct::__private_capture!(key: expr)`. -/
structure Capture where
  attrs : List String
  key : String
  expr : Expr
  deriving DecidableEq, Repr

/-- The mutable state threaded through `push_field_value` in
`expand_tokens`: captured field-values in rendering order, the binding
identifiers (`__tmp{i}`, modelled by their index), the
key-sorted binding map, and the running index. -/
structure EmitState where
  field_values : List Capture
  field_bindings : List Nat
  sorted_field_bindings : List (String × Nat)
  field_index : Nat
  deriving DecidableEq, Repr

/-- The initial state of `expand_tokens`. -/
def initState : EmitState := ⟨[], [], [], 0⟩

/-- Mirror of the `push_field_value` closure of `expand_tokens`: strip the
attributes into the capture, bind the capture to `__tmp{field_index}`, and
record the binding under the key in the sorted map, failing with the
`keys cannot be duplicated` panic when the key is already present. -/
def push_field_value (st : EmitState) (k : String) (fv : FieldValue) : Except String EmitState :=
  match btreeGet k st.sorted_field_bindings with
  | some _ => .error "keys cannot be duplicated"
  | none =>
    .ok { field_values := st.field_values ++ [⟨fv.attrs, fv.key, fv.expr⟩]
        , field_bindings := st.field_bindings ++ [st.field_index]
        , sorted_field_bindings := btreeInsert k st.field_index st.sorted_field_bindings
        , field_index := st.field_index + 1 }

/-- The state after a successful `push_field_value`: the capture is
appended, bound to the next index, and recorded in the sorted map. -/
def pushState (st : EmitState) (k : String) (fv : FieldValue) : EmitState :=
  { field_values := st.field_values ++ [⟨fv.attrs, fv.key, fv.expr⟩]
  , field_bindings := st.field_bindings ++ [st.field_index]
  , sorted_field_bindings := btreeInsert k st.field_index st.sorted_field_bindings
  , field_index := st.field_index + 1 }

/-- Mirror of the per-hole merge in `expand_tokens` (lines 67 to 84): if the
hole has a corresponding extra field-value it is consumed and used as the
source for the value and attributes, provided the hole itself is a plain
identifier with no attributes; otherwise the hole's own field-value is
used.  The three `panic`/`assert` messages become errors. -/
def resolveHole (ex : List (String × FieldValue)) (fv : FieldValue) :
    Except String (FieldValue × List (String × FieldValue)) :=
  match btreeGet fv.key_name ex with
  | some extra_fv =>
    match fv.expr with
    | .path segs =>
      if fv.attrs = [] then
        if pathIdent segs = some fv.key_name then
          .ok (extra_fv, btreeErase fv.key_name ex)
        else .error "the key name and path don't match"
      else .error "keys that exist in the template and extra pairs should only use attributes on the extra pair"
    | _ => .error "keys that exist in the template and extra pairs should only use identifiers"
  | none => .ok (fv, ex)

/-- The loop of `expand_tokens` that pushes the field-values appearing in
the template, in rendering order. -/
def processHoles : List FieldValue → EmitState → List (String × FieldValue) →
    Except String (EmitState × List (String × FieldValue))
  | [], st, ex => .ok (st, ex)
  | fv :: rest, st, ex =>
    match resolveHole ex fv with
    | .error e => .error e
    | .ok (fv2, ex2) =>
      match push_field_value st fv.key_name fv2 with
      | .error e => .error e
      | .ok st2 => processHoles rest st2 ex2

/-- The loop of `expand_tokens` that pushes the remaining extra
field-values; a `BTreeMap` iterates in ascending key order, which is the
order of the sorted association list. -/
def pushExtras : List (String × FieldValue) → EmitState → Except String EmitState
  | [], st => .ok st
  | (k, fv) :: rest, st =>
    match push_field_value st k fv with
    | .error e => .error e
    | .ok st2 => pushExtras rest st2

/-- The `target_tokens` expression of `expand_tokens`: the first
before-template field-value whose key is `target`, if any. -/
def targetOf (t : Template) : Option Expr :=
  (t.before.find? (fun fv => fv.key_name == "target")).map FieldValue.expr

/-- The data `expand_tokens` splices into the generated block: the captures
in rendering order with their bindings, the sorted key/binding map used for
`KeyValues`/`__private_forward!`, the target expression, and the template
parts. -/
structure Emit where
  field_values : List Capture
  field_bindings : List Nat
  sorted_field_bindings : List (String × Nat)
  target : Option Expr
  parts : List TemplatePart
  deriving DecidableEq, Repr

/-- Mirror of `expand_tokens` (`ct/src/emit.rs`): collect the extras,
process the template holes in rendering order, append the remaining
extras in ascending key order, and select the target. -/
def expand_tokens (t : Template) : Except String Emit :=
  match processHoles t.holes initState (collectExtras t.after) with
  | .error e => .error e
  | .ok (st, remaining) =>
    match pushExtras remaining st with
    | .error e => .error e
    | .ok st2 =>
      .ok { field_values := st2.field_values
          , field_bindings := st2.field_bindings
          , sorted_field_bindings := st2.sorted_field_bindings
          , target := targetOf t
          , parts := t.parts }

/-- The names of the resolved fields in rendering order. -/
def renderKeys (e : Emit) : List String := e.field_values.map Capture.key

/-- The sorted keys, as spliced into `__private_forward!`. -/
def sortedKeys (e : Emit) : List String := e.sorted_field_bindings.map Prod.fst

/-- The bindings in sorted-key order, as spliced into `sorted_key_values`:
entry `j` is the rendering position whose capture is stored at sorted
position `j`. -/
def sortedBindings (e : Emit) : List Nat := e.sorted_field_bindings.map Prod.snd

/-- Position of the first occurrence of `n` in a list of naturals. -/
def posOf (n : Nat) : List Nat → Nat
  | [] => 0
  | m :: rest => if m = n then 0 else posOf n rest + 1

/-- The map from rendering positions to sorted positions: rendering
position `i` is bound to `__tmp{i}`, which the generated code stores at the
sorted position where `i` occurs in `sortedBindings`. -/
def index_map (e : Emit) : List Nat :=
  (List.range e.field_values.length).map (fun i => posOf i (sortedBindings e))

/-- The keys already recorded in the sorted binding map of a state. -/
def pushedKeys (st : EmitState) : List String :=
  st.sorted_field_bindings.map Prod.fst

/-- The key list of an association-list map, in entry order. -/
def keysOf {A : Type} (m : List (String × A)) : List String := m.map Prod.fst

/-- The invariant `expand_tokens` maintains while pushing field-values:
the running index counts the captures, the sorted binding map is sorted by
key, each binding points at the capture with the matching name, the
bindings enumerate the rendering positions, and the sorted keys are a
permutation of the rendering-order keys. -/
def StInv (st : EmitState) : Prop :=
  st.field_index = st.field_values.length ∧
  List.Pairwise (fun p q => strLt p.1 q.1 = true) st.sorted_field_bindings ∧
  (∀ p ∈ st.sorted_field_bindings, ∃ c, st.field_values[p.2]? = some c ∧ c.key = p.1) ∧
  List.Perm (st.sorted_field_bindings.map Prod.snd) (List.range st.field_values.length) ∧
  List.Perm (st.sorted_field_bindings.map Prod.fst) (st.field_values.map Capture.key)

/-- Boolean disequality of strings. -/
def neB (x k : String) : Bool := if x = k then false else true

/-- Boolean membership of a string in a list. -/
def memB (x : String) : List String → Bool
  | [] => false
  | y :: rest => if x = y then true else memB x rest

/-- A bare reference to the name `k`: the shorthand field-value `k`, with
no attributes, whose expression is the plain identifier `k`. -/
def mkBare (k : String) : FieldValue := ⟨[], k, .path [k]⟩

/-- The identifier of an expression, when it is a plain single-segment
path. -/
def exprIdent : Expr → Option String
  | .path segs => pathIdent segs
  | _ => none

/-- The condition under which `expand_tokens` lets a template hole consume
an extra field-value: the hole carries no attributes of its own and its
expression is the plain identifier equal to `k`. -/
def isBare (k : String) (fv : FieldValue) : Prop :=
  fv.attrs = [] ∧ exprIdent fv.expr = some k

instance (k : String) (fv : FieldValue) : Decidable (isBare k fv) := by
  unfold isBare; infer_instance

/-- Whether an expression is a `syn::Expr::Path`. -/
def isPathE : Expr → Bool
  | .path _ => true
  | _ => false

/-- The template `"Text and {b: 17} and {a} and {#[attr] c} and {d: expr}"`
together with the extra field-value `a: <value>` (value taken to be the
literal 99), parsed per the template grammar of spec section 6. -/
def templateC1 : Template :=
  { before := []
  , parts := [.text "Text and ", .hole "b", .text " and ", .hole "a",
              .text " and ", .hole "c", .text " and ", .hole "d"]
  , holes := [⟨[], "b", .lit 17⟩, mkBare "a", ⟨["attr"], "c", .path ["c"]⟩,
              ⟨[], "d", .path ["expr"]⟩]
  , after := [⟨[], "a", .lit 99⟩] }

/-- The expansion of `templateC1`. -/
def emitC1 : Emit :=
  { field_values := [⟨[], "b", .lit 17⟩, ⟨[], "a", .lit 99⟩,
                     ⟨["attr"], "c", .path ["c"]⟩, ⟨[], "d", .path ["expr"]⟩]
  , field_bindings := [0, 1, 2, 3]
  , sorted_field_bindings := [("a", 1), ("b", 0), ("c", 2), ("d", 3)]
  , target := none
  , parts := templateC1.parts }

/-- Two extra field-values sharing the name `a` after a plain-text
template. -/
def templateExtraDup : Template :=
  { before := [], parts := [.text "Text"], holes := []
  , after := [⟨[], "a", .lit 1⟩, ⟨[], "a", .lit 2⟩] }

/-- The expansion of `templateExtraDup`: the later extra replaced the
earlier in the `BTreeMap`, and a single field is produced. -/
def emitExtraDup : Emit :=
  { field_values := [⟨[], "a", .lit 2⟩]
  , field_bindings := [0]
  , sorted_field_bindings := [("a", 0)]
  , target := none
  , parts := [.text "Text"] }

/-- A template with two holes named `a`. -/
def templateHoleDup : Template :=
  { before := [], parts := [.hole "a", .text " and ", .hole "a"]
  , holes := [mkBare "a", mkBare "a"], after := [] }

/-- A template with no holes whose extras are supplied in the order
`b`, `a`. -/
def templateExtrasOrder : Template :=
  { before := [], parts := [.text "Text"], holes := []
  , after := [mkBare "b", mkBare "a"] }

/-- One hole `x` with an inline value, plus unreferenced extras supplied in
the order `b`, `a`. -/
def templateC3 : Template :=
  { before := [], parts := [.hole "x"], holes := [⟨[], "x", .lit 7⟩]
  , after := [mkBare "b", mkBare "a"] }

/-- The expansion of `templateC3`: the hole first, then the extras in
ascending name order. -/
def emitC3 : Emit :=
  { field_values := [⟨[], "x", .lit 7⟩, ⟨[], "a", .path ["a"]⟩, ⟨[], "b", .path ["b"]⟩]
  , field_bindings := [0, 1, 2]
  , sorted_field_bindings := [("a", 1), ("b", 2), ("x", 0)]
  , target := none
  , parts := [.hole "x"] }

/-- The template `"Text and {a}"` with no extras. -/
def templateC4 : Template :=
  { before := [], parts := [.text "Text and ", .hole "a"]
  , holes := [mkBare "a"], after := [] }

/-- The hole `{a: 1}` together with the extra `a: 2`. -/
def templateC5 : Template :=
  { before := [], parts := [.text "Text and ", .hole "a"]
  , holes := [⟨[], "a", .lit 1⟩], after := [⟨[], "a", .lit 2⟩] }

/-- The template `"Text and {a}"` with a single extra `a` carrying the
given value expression and attributes. -/
def templateC6 (v : Expr) (attrs : List String) : Template :=
  { before := [], parts := [.text "Text and ", .hole "a"]
  , holes := [mkBare "a"], after := [⟨attrs, "a", v⟩] }

/-- The expansion of `templateC6 v attrs`: one field named `a` whose value
producer and attributes come from the extra entry. -/
def emitC6 (v : Expr) (attrs : List String) : Emit :=
  { field_values := [⟨attrs, "a", v⟩]
  , field_bindings := [0]
  , sorted_field_bindings := [("a", 0)]
  , target := none
  , parts := [.text "Text and ", .hole "a"] }

/-- Two bare holes `b`, `a` with the extras `a`, `b` supplied as bare
references. -/
def templateC7 : Template :=
  { before := [], parts := [.hole "b", .text " and ", .hole "a"]
  , holes := [mkBare "b", mkBare "a"], after := [mkBare "a", mkBare "b"] }

/-- The bare hole `{#[debug] a}` together with the extra `a: 2`. -/
def templateC10 : Template :=
  { before := [], parts := [.text "t ", .hole "a"]
  , holes := [⟨["debug"], "a", .path ["a"]⟩], after := [⟨[], "a", .lit 2⟩] }

/-- The second case of the `expand_emit` test: the invocation
`log, "Text and {a}", a: 42`, whose before-template field-value is the bare
reference `log`. -/
def templateLog : Template :=
  { before := [⟨[], "log", .path ["log"]⟩]
  , parts := [.text "Text and ", .hole "a"]
  , holes := [mkBare "a"], after := [⟨[], "a", .lit 42⟩] }

/-- The expansion of `templateLog` under the code as written: the
before-template field-value `log` does not have key `target`, so the
forwarded target is `none`, while the `expand_emit` test expects
`Some(log)`. -/
def emitLog : Emit :=
  { field_values := [⟨[], "a", .lit 42⟩]
  , field_bindings := [0]
  , sorted_field_bindings := [("a", 0)]
  , target := none
  , parts := [.text "Text and ", .hole "a"] }

/-- Characters with equal scalar values are equal. -/
theorem charToNat_inj {c d : Char} (h : c.toNat = d.toNat) : c = d :=
  Char.ext (UInt32.ext h)

/-- The lexicographic order on character lists is irreflexive. -/
theorem charListLt_irrefl : ∀ l : List Char, charListLt l l = false
  | [] => rfl
  | c :: cs => by
    simp only [charListLt, Nat.lt_irrefl, if_false]
    exact charListLt_irrefl cs

/-- Nothing is lexicographically below the empty character list. -/
theorem charListLt_nil_right : ∀ l : List Char, charListLt l [] = false
  | [] => rfl
  | _ :: _ => rfl

/-- The lexicographic order on character lists is transitive. -/
theorem charListLt_trans : ∀ {a b c : List Char},
    charListLt a b = true → charListLt b c = true → charListLt a c = true
  | _, b, [], _, h2 => by rw [charListLt_nil_right b] at h2; cases h2
  | [], _, _ :: _, _, _ => rfl
  | x :: xs, [], _ :: _, h1, _ => by rw [charListLt_nil_right (x :: xs)] at h1; cases h1
  | x :: xs, y :: ys, z :: zs, h1, h2 => by
    simp only [charListLt] at h1 h2 ⊢
    rcases Nat.lt_trichotomy x.toNat y.toNat with hxy | hxy | hxy
    · rcases Nat.lt_trichotomy y.toNat z.toNat with hyz | hyz | hyz
      · rw [if_pos (Nat.lt_trans hxy hyz)]
      · rw [if_pos (hyz ▸ hxy)]
      · rw [if_neg (Nat.lt_asymm hyz), if_pos hyz] at h2
        cases h2
    · rcases Nat.lt_trichotomy y.toNat z.toNat with hyz | hyz | hyz
      · rw [if_pos (hxy ▸ hyz)]
      · have hxz : x.toNat = z.toNat := hxy.trans hyz
        rw [if_neg (hxy ▸ Nat.lt_irrefl _), if_neg (hxy ▸ Nat.lt_irrefl _)] at h1
        rw [if_neg (hyz ▸ Nat.lt_irrefl _), if_neg (hyz ▸ Nat.lt_irrefl _)] at h2
        rw [if_neg (hxz ▸ Nat.lt_irrefl _), if_neg (hxz ▸ Nat.lt_irrefl _)]
        exact charListLt_trans h1 h2
      · rw [if_neg (Nat.lt_asymm hyz), if_pos hyz] at h2
        cases h2
    · rw [if_neg (Nat.lt_asymm hxy), if_pos hxy] at h1
      cases h1

/-- Totality: if `a` is not below `b` and differs from it, `b` is below
`a`. -/
theorem charListLt_of_not : ∀ {a b : List Char},
    charListLt a b = false → a ≠ b → charListLt b a = true
  | [], [], _, hne => absurd rfl hne
  | [], _ :: _, h1, _ => by cases h1
  | _ :: _, [], _, _ => rfl
  | x :: xs, y :: ys, h1, hne => by
    simp only [charListLt] at h1 ⊢
    rcases Nat.lt_trichotomy x.toNat y.toNat with hxy | hxy | hxy
    · rw [if_pos hxy] at h1; cases h1
    · have hx : x = y := charToNat_inj hxy
      subst hx
      rw [if_neg (Nat.lt_irrefl _), if_neg (Nat.lt_irrefl _)] at h1 ⊢
      have hne2 : xs ≠ ys := fun h => hne (h ▸ rfl)
      exact charListLt_of_not h1 hne2
    · rw [if_pos hxy]

/-- `strLt` is irreflexive. -/
theorem strLt_irrefl (a : String) : strLt a a = false := charListLt_irrefl a.data

/-- `strLt` is transitive. -/
theorem strLt_trans {a b c : String} (h1 : strLt a b = true) (h2 : strLt b c = true) :
    strLt a c = true := charListLt_trans h1 h2

/-- `strLt` is total on distinct strings. -/
theorem strLt_of_not {a b : String} (h1 : strLt a b = false) (hne : a ≠ b) :
    strLt b a = true := by
  refine charListLt_of_not h1 (fun hd => hne ?_)
  cases a
  cases b
  simp_all

/-- Strings below one another are distinct. -/
theorem strLt_ne {a b : String} (h : strLt a b = true) : a ≠ b := by
  intro he
  subst he
  rw [strLt_irrefl a] at h
  cases h

/-- `btreeGet` misses exactly the keys not in the map. -/
theorem btreeGet_none {A : Type} {k : String} : ∀ {m : List (String × A)},
    btreeGet k m = none ↔ k ∉ keysOf m
  | [] => by
    constructor
    · intro _ h
      cases h
    · intro _
      rfl
  | (k2, v) :: rest => by
    by_cases hk : k = k2
    · subst hk
      constructor
      · intro h
        rw [btreeGet, if_pos rfl] at h
        cases h
      · intro h
        exact absurd (List.mem_cons_self k (keysOf rest)) h
    · rw [btreeGet, if_neg hk, show keysOf ((k2, v) :: rest) = k2 :: keysOf rest from rfl]
      rw [btreeGet_none]
      constructor
      · intro h hm
        rcases List.mem_cons.mp hm with h2 | h2
        · exact hk h2
        · exact h h2
      · intro h h2
        exact h (List.mem_cons_of_mem _ h2)

/-- A key present in the map is found by `btreeGet`. -/
theorem mem_keys_some {A : Type} {k : String} {m : List (String × A)}
    (h : k ∈ keysOf m) : ∃ v, btreeGet k m = some v := by
  cases hg : btreeGet k m with
  | none => exact absurd h (btreeGet_none.mp hg)
  | some v => exact ⟨v, rfl⟩

/-- A successful `btreeGet` returns an entry of the map. -/
theorem btreeGet_some_mem {A : Type} {k : String} {v : A} : ∀ {m : List (String × A)},
    btreeGet k m = some v → (k, v) ∈ m
  | [], h => by cases h
  | (k2, v2) :: rest, h => by
    by_cases hk : k = k2
    · subst hk
      rw [btreeGet, if_pos rfl] at h
      cases h
      exact List.mem_cons_self _ _
    · rw [btreeGet, if_neg hk] at h
      exact List.mem_cons_of_mem _ (btreeGet_some_mem h)

/-- Entries of `btreeInsert` are the new entry or old entries. -/
theorem btreeInsert_mem {A : Type} {k : String} {v : A} {p : String × A} :
    ∀ {m : List (String × A)}, p ∈ btreeInsert k v m → p = (k, v) ∨ p ∈ m
  | [], h => by
    rw [btreeInsert] at h
    rcases List.mem_cons.mp h with h | h
    · exact Or.inl h
    · cases h
  | (k2, v2) :: rest, h => by
    rw [btreeInsert] at h
    by_cases hlt : strLt k k2 = true
    · rw [if_pos hlt] at h
      rcases List.mem_cons.mp h with h | h
      · exact Or.inl h
      · exact Or.inr h
    · rw [if_neg hlt] at h
      by_cases he : k = k2
      · rw [if_pos he] at h
        rcases List.mem_cons.mp h with h | h
        · exact Or.inl h
        · exact Or.inr (List.mem_cons_of_mem _ h)
      · rw [if_neg he] at h
        rcases List.mem_cons.mp h with h | h
        · exact Or.inr (List.mem_cons.mpr (Or.inl h))
        · rcases btreeInsert_mem h with h | h
          · exact Or.inl h
          · exact Or.inr (List.mem_cons_of_mem _ h)

/-- The inserted key is present after `btreeInsert`. -/
theorem mem_keys_insert_self {A : Type} {k : String} {v : A} :
    ∀ {m : List (String × A)}, k ∈ keysOf (btreeInsert k v m)
  | [] => List.mem_cons_self _ _
  | (k2, v2) :: rest => by
    rw [btreeInsert]
    by_cases hlt : strLt k k2 = true
    · rw [if_pos hlt]
      exact List.mem_cons_self _ _
    · rw [if_neg hlt]
      by_cases he : k = k2
      · rw [if_pos he]
        exact List.mem_cons_self _ _
      · rw [if_neg he]
        exact List.mem_cons_of_mem _ mem_keys_insert_self

/-- Keys survive `btreeInsert`. -/
theorem mem_keys_insert_of {A : Type} {k x : String} {v : A} :
    ∀ {m : List (String × A)}, x ∈ keysOf m → x ∈ keysOf (btreeInsert k v m)
  | [], h => by cases h
  | (k2, v2) :: rest, h => by
    rw [btreeInsert]
    rcases List.mem_cons.mp h with h | h
    · by_cases hlt : strLt k k2 = true
      · rw [if_pos hlt]
        exact List.mem_cons_of_mem _ (h ▸ List.mem_cons_self _ _)
      · rw [if_neg hlt]
        by_cases he : k = k2
        · rw [if_pos he, h, he]
          exact List.mem_cons_self _ _
        · rw [if_neg he]
          exact h ▸ List.mem_cons_self _ _
    · by_cases hlt : strLt k k2 = true
      · rw [if_pos hlt]
        exact List.mem_cons_of_mem _ (List.mem_cons_of_mem _ h)
      · rw [if_neg hlt]
        by_cases he : k = k2
        · rw [if_pos he]
          exact List.mem_cons_of_mem _ h
        · rw [if_neg he]
          exact List.mem_cons_of_mem _ (mem_keys_insert_of h)

/-- Inserting a fresh key permutes to consing the entry. -/
theorem btreeInsert_perm {A : Type} {k : String} {v : A} :
    ∀ {m : List (String × A)}, k ∉ keysOf m →
      List.Perm (btreeInsert k v m) ((k, v) :: m)
  | [], _ => List.Perm.refl _
  | (k2, v2) :: rest, h => by
    have hk : k ≠ k2 := fun he => h (he ▸ List.mem_cons_self _ _)
    have hrest : k ∉ keysOf rest := fun hr => h (List.mem_cons_of_mem _ hr)
    rw [btreeInsert]
    by_cases hlt : strLt k k2 = true
    · rw [if_pos hlt]
    · rw [if_neg hlt, if_neg hk]
      exact ((btreeInsert_perm hrest).cons (k2, v2)).trans (List.Perm.swap _ _ _)

/-- `btreeInsert` preserves sortedness of the association list. -/
theorem btreeInsert_sorted {A : Type} {k : String} {v : A} :
    ∀ {m : List (String × A)},
      List.Pairwise (fun p q => strLt p.1 q.1 = true) m →
      List.Pairwise (fun p q => strLt p.1 q.1 = true) (btreeInsert k v m)
  | [], _ => List.pairwise_singleton _ _
  | (k2, v2) :: rest, h => by
    rcases List.pairwise_cons.mp h with ⟨h2, hrest⟩
    rw [btreeInsert]
    by_cases hlt : strLt k k2 = true
    · rw [if_pos hlt]
      refine List.pairwise_cons.mpr ⟨?_, h⟩
      intro p hp
      rcases List.mem_cons.mp hp with hp | hp
      · rw [hp]
        exact hlt
      · exact strLt_trans hlt (h2 p hp)
    · rw [if_neg hlt]
      by_cases he : k = k2
      · rw [if_pos he]
        subst he
        exact List.pairwise_cons.mpr ⟨h2, hrest⟩
      · rw [if_neg he]
        refine List.pairwise_cons.mpr ⟨?_, btreeInsert_sorted hrest⟩
        intro p hp
        rcases btreeInsert_mem hp with hp | hp
        · rw [hp]
          exact strLt_of_not (Bool.eq_false_iff.mpr hlt) he
        · exact h2 p hp

/-- `btreeErase` yields a sublist. -/
theorem btreeErase_sublist {A : Type} {k : String} :
    ∀ (m : List (String × A)), List.Sublist (btreeErase k m) m
  | [] => List.Sublist.refl _
  | (k2, v2) :: rest => by
    rw [btreeErase]
    by_cases he : k = k2
    · rw [if_pos he]
      exact List.sublist_cons_self _ _
    · rw [if_neg he]
      exact (btreeErase_sublist rest).cons₂ _

/-- Keys other than the erased one survive `btreeErase`. -/
theorem btreeErase_mem_keys {A : Type} {k x : String} :
    ∀ {m : List (String × A)}, x ∈ keysOf m → x ≠ k →
      x ∈ keysOf (btreeErase k m)
  | [], h, _ => by cases h
  | (k2, v2) :: rest, h, hne => by
    rw [btreeErase]
    rcases List.mem_cons.mp h with h | h
    · rw [if_neg (fun he : k = k2 => hne (h.trans he.symm))]
      exact h ▸ List.mem_cons_self _ _
    · by_cases he : k = k2
      · rw [if_pos he]
        exact h
      · rw [if_neg he]
        exact List.mem_cons_of_mem _ (btreeErase_mem_keys h hne)

/-- On a map with distinct keys, erasing filters the key list. -/
theorem btreeErase_keys {A : Type} {k : String} :
    ∀ {m : List (String × A)}, (keysOf m).Nodup →
      keysOf (btreeErase k m) = (keysOf m).filter (fun x => neB x k)
  | [], _ => rfl
  | (k2, v2) :: rest, h => by
    rcases List.nodup_cons.mp h with ⟨hk2, hrest⟩
    rw [btreeErase]
    by_cases he : k = k2
    · subst he
      rw [if_pos rfl]
      rw [show ((keysOf ((k, v2) :: rest)).filter (fun x => neB x k)) =
          (k :: keysOf rest).filter (fun x => neB x k) from rfl]
      rw [List.filter_cons_of_neg (by rw [neB, if_pos rfl]; exact Bool.false_ne_true)]
      symm
      refine List.filter_eq_self.mpr (fun x hx => ?_)
      have hxk : ¬ x = k := fun hxk => hk2 (hxk ▸ hx)
      rw [neB, if_neg hxk]
    · rw [if_neg he]
      rw [show keysOf ((k2, v2) :: btreeErase k rest) = k2 :: keysOf (btreeErase k rest) from rfl]
      rw [show keysOf ((k2, v2) :: rest) = k2 :: keysOf rest from rfl]
      rw [List.filter_cons_of_pos (by rw [neB, if_neg (fun h2 : k2 = k => he h2.symm)])]
      rw [btreeErase_keys hrest]

/-- Erasing an absent key is the identity. -/
theorem btreeGet_none_erase {A : Type} {k : String} :
    ∀ {m : List (String × A)}, btreeGet k m = none → btreeErase k m = m
  | [], _ => rfl
  | (k2, v2) :: rest, h => by
    by_cases he : k = k2
    · subst he
      rw [btreeGet, if_pos rfl] at h
      cases h
    · rw [btreeGet, if_neg he] at h
      rw [btreeErase, if_neg he, btreeGet_none_erase h]
/-- `memB` agrees with list membership. -/
theorem memB_iff {x : String} : ∀ {l : List String}, memB x l = true ↔ x ∈ l
  | [] => by
    constructor
    · intro h
      cases h
    · intro h
      cases h
  | y :: rest => by
    by_cases he : x = y
    · subst he
      rw [memB, if_pos rfl]
      exact ⟨fun _ => List.mem_cons_self _ _, fun _ => rfl⟩
    · rw [memB, if_neg he]
      rw [memB_iff]
      constructor
      · intro h
        exact List.mem_cons_of_mem _ h
      · intro h
        rcases List.mem_cons.mp h with h | h
        · exact absurd h he
        · exact h

/-- Splitting a negated membership test at a cons cell. -/
theorem not_memB_cons (a h : String) (rest : List String) :
    (!(memB a (h :: rest))) = ((!(memB a rest)) && neB a h) := by
  by_cases he : a = h
  · rw [memB, if_pos he, neB, if_pos he, Bool.and_false]
    rfl
  · rw [memB, if_neg he, neB, if_neg he, Bool.and_true]

/-- Keys of a fold of erasures: the original keys, filtered by the erased
key set. -/
theorem foldl_erase_keys {A : Type} : ∀ (hs : List FieldValue) (ex : List (String × A)),
    (keysOf ex).Nodup →
    keysOf (hs.foldl (fun e fv => btreeErase fv.key_name e) ex) =
      (keysOf ex).filter (fun x => !(memB x (hs.map FieldValue.key_name)))
  | [], ex, _ => by
    rw [List.foldl_nil]
    symm
    refine List.filter_eq_self.mpr (fun x _ => ?_)
    rfl
  | h :: rest, ex, hnd => by
    rw [List.foldl_cons]
    have hnd2 : (keysOf (btreeErase h.key_name ex)).Nodup :=
      List.Nodup.sublist ((btreeErase_sublist ex).map Prod.fst) hnd
    rw [foldl_erase_keys rest _ hnd2]
    rw [btreeErase_keys hnd]
    rw [List.filter_filter]
    refine List.filter_congr (fun x _ => ?_)
    rw [List.map_cons, not_memB_cons]

/-- A sorted association list has distinct keys. -/
theorem sorted_nodup_keys {A : Type} {m : List (String × A)}
    (h : List.Pairwise (fun p q => strLt p.1 q.1 = true) m) : (keysOf m).Nodup :=
  (List.Pairwise.map Prod.fst (fun _ _ hpq => hpq) h).imp strLt_ne

/-- Any property of entries preserved by insertion holds for all entries of
the collecting fold. -/
theorem collect_fold_pred (P : String × FieldValue → Prop) :
    ∀ (l : List FieldValue) (acc : List (String × FieldValue)),
      (∀ p ∈ acc, P p) → (∀ fv ∈ l, P (fv.key_name, fv)) →
      ∀ p ∈ l.foldl (fun m fv => btreeInsert fv.key_name fv m) acc, P p
  | [], acc, hacc, _, p, hp => hacc p (by rwa [List.foldl_nil] at hp)
  | fv :: rest, acc, hacc, hl, p, hp => by
    rw [List.foldl_cons] at hp
    refine collect_fold_pred P rest _ ?_ (fun g hg => hl g (List.mem_cons_of_mem _ hg)) p hp
    intro q hq
    rcases btreeInsert_mem hq with hq | hq
    · rw [hq]
      exact hl fv (List.mem_cons_self _ _)
    · exact hacc q hq

/-- Any property of entries preserved by insertion holds for all entries of
`collectExtras`. -/
theorem collect_pred (P : String × FieldValue → Prop) (l : List FieldValue)
    (hl : ∀ fv ∈ l, P (fv.key_name, fv)) : ∀ p ∈ collectExtras l, P p :=
  collect_fold_pred P l [] (fun p hp => absurd hp (List.not_mem_nil p)) hl

/-- The collecting fold preserves sortedness. -/
theorem collect_fold_sorted : ∀ (l : List FieldValue) (acc : List (String × FieldValue)),
    List.Pairwise (fun p q => strLt p.1 q.1 = true) acc →
    List.Pairwise (fun p q => strLt p.1 q.1 = true)
      (l.foldl (fun m fv => btreeInsert fv.key_name fv m) acc)
  | [], acc, hacc => by rwa [List.foldl_nil]
  | fv :: rest, acc, hacc => by
    rw [List.foldl_cons]
    exact collect_fold_sorted rest _ (btreeInsert_sorted hacc)

/-- `collectExtras` is sorted by key. -/
theorem collect_sorted (l : List FieldValue) :
    List.Pairwise (fun p q => strLt p.1 q.1 = true) (collectExtras l) :=
  collect_fold_sorted l [] List.Pairwise.nil

/-- `collectExtras` has distinct keys. -/
theorem collect_nodup_keys (l : List FieldValue) : (keysOf (collectExtras l)).Nodup :=
  sorted_nodup_keys (collect_sorted l)

/-- Keys accumulate through the collecting fold. -/
theorem mem_keys_collect_fold {k : String} :
    ∀ (l : List FieldValue) (acc : List (String × FieldValue)),
      k ∈ keysOf acc ∨ k ∈ l.map FieldValue.key_name →
      k ∈ keysOf (l.foldl (fun m fv => btreeInsert fv.key_name fv m) acc)
  | [], acc, h => by
    rw [List.foldl_nil]
    rcases h with h | h
    · exact h
    · cases h
  | fv :: rest, acc, h => by
    rw [List.foldl_cons]
    refine mem_keys_collect_fold rest _ ?_
    rcases h with h | h
    · exact Or.inl (mem_keys_insert_of h)
    · rcases List.mem_cons.mp h with h | h
      · rw [h]
        exact Or.inl mem_keys_insert_self
      · exact Or.inr h

/-- Every supplied name is a key of `collectExtras`. -/
theorem mem_keys_collect {k : String} {l : List FieldValue}
    (h : k ∈ l.map FieldValue.key_name) : k ∈ keysOf (collectExtras l) :=
  mem_keys_collect_fold l [] (Or.inr h)

/-- Successful `push_field_value`: the key was fresh and the state is
extended in the unique possible way. -/
theorem push_ok_elim {st : EmitState} {k : String} {fv : FieldValue} {st2 : EmitState}
    (h : push_field_value st k fv = .ok st2) :
    k ∉ pushedKeys st ∧ st2 = pushState st k fv := by
  unfold push_field_value at h
  cases hg : btreeGet k st.sorted_field_bindings with
  | some v =>
    rw [hg] at h
    exact Except.noConfusion h
  | none =>
    rw [hg] at h
    exact ⟨btreeGet_none.mp hg, (Except.ok.inj h).symm⟩

/-- A fresh key always pushes successfully. -/
theorem push_ok {st : EmitState} {k : String} (fv : FieldValue) (h : k ∉ pushedKeys st) :
    push_field_value st k fv = .ok (pushState st k fv) := by
  unfold push_field_value
  rw [btreeGet_none.mpr h]
  rfl

/-- Successful `resolveHole`: either there was no extra entry and the
hole's own field-value is used unchanged, or the hole was a bare reference
and the extra entry is consumed and removed. -/
theorem resolveHole_ok {ex : List (String × FieldValue)} {fv fv2 : FieldValue}
    {ex2 : List (String × FieldValue)} (h : resolveHole ex fv = .ok (fv2, ex2)) :
    (btreeGet fv.key_name ex = none ∧ fv2 = fv ∧ ex2 = ex) ∨
      (btreeGet fv.key_name ex = some fv2 ∧ ex2 = btreeErase fv.key_name ex ∧
        isBare fv.key_name fv) := by
  unfold resolveHole at h
  cases hg : btreeGet fv.key_name ex with
  | none =>
    simp only [hg] at h
    have h3 := Except.ok.inj h
    simp only [Prod.mk.injEq] at h3
    exact Or.inl ⟨rfl, h3.1.symm, h3.2.symm⟩
  | some v =>
    simp only [hg] at h
    cases hexpr : fv.expr with
    | path segs =>
      simp only [hexpr] at h
      by_cases ha : fv.attrs = []
      · rw [if_pos ha] at h
        by_cases hpi : pathIdent segs = some fv.key_name
        · rw [if_pos hpi] at h
          have h3 := Except.ok.inj h
          simp only [Prod.mk.injEq] at h3
          refine Or.inr ⟨congrArg some h3.1, h3.2.symm, ha, ?_⟩
          rw [hexpr]
          exact hpi
        · rw [if_neg hpi] at h
          exact Except.noConfusion h
      · rw [if_neg ha] at h
        exact Except.noConfusion h
    | lit n =>
      simp only [hexpr] at h
      exact Except.noConfusion h
    | other d =>
      simp only [hexpr] at h
      exact Except.noConfusion h

/-- A hole that is not a bare reference to its own key fails to resolve
when an extra entry with its name is present. -/
theorem resolveHole_not_bare {ex : List (String × FieldValue)} {fv : FieldValue} {v : FieldValue}
    (hg : btreeGet fv.key_name ex = some v) (hnb : ¬ isBare fv.key_name fv) :
    ∃ msg, resolveHole ex fv = .error msg := by
  unfold resolveHole
  simp only [hg]
  cases hexpr : fv.expr with
  | path segs =>
    simp only [hexpr]
    by_cases ha : fv.attrs = []
    · rw [if_pos ha]
      by_cases hpi : pathIdent segs = some fv.key_name
      · exact absurd ⟨ha, by rw [hexpr]; exact hpi⟩ hnb
      · rw [if_neg hpi]
        exact ⟨_, rfl⟩
    · rw [if_neg ha]
      exact ⟨_, rfl⟩
  | lit n =>
    simp only [hexpr]
    exact ⟨_, rfl⟩
  | other d =>
    simp only [hexpr]
    exact ⟨_, rfl⟩

/-- On success, the hole names are distinct and none of them was already
pushed. -/
theorem processHoles_ok_nodup : ∀ {hs : List FieldValue} {st : EmitState}
    {ex : List (String × FieldValue)} {r : EmitState × List (String × FieldValue)},
    processHoles hs st ex = .ok r →
    (hs.map FieldValue.key_name).Nodup ∧
      ∀ k ∈ hs.map FieldValue.key_name, k ∉ pushedKeys st
  | [], _, _, _, _ => ⟨List.nodup_nil, fun k hk => absurd hk (List.not_mem_nil k)⟩
  | fv :: rest, st, ex, r, h => by
    rw [processHoles] at h
    cases hr : resolveHole ex fv with
    | error e =>
      simp only [hr] at h
      exact Except.noConfusion h
    | ok p =>
      obtain ⟨fv2, ex2⟩ := p
      simp only [hr] at h
      cases hp : push_field_value st fv.key_name fv2 with
      | error e =>
        simp only [hp] at h
        exact Except.noConfusion h
      | ok st2 =>
        simp only [hp] at h
        obtain ⟨hfresh, hst2⟩ := push_ok_elim hp
        obtain ⟨hnd, hdis⟩ := processHoles_ok_nodup h
        have hmem2 : fv.key_name ∈ pushedKeys st2 := by
          rw [hst2]
          exact mem_keys_insert_self
        constructor
        · rw [List.map_cons]
          refine List.nodup_cons.mpr ⟨fun hmem => hdis fv.key_name hmem hmem2, hnd⟩
        · intro k hk
          rcases List.mem_cons.mp (by rwa [List.map_cons] at hk) with hk | hk
          · rw [hk]
            exact hfresh
          · intro hin
            refine hdis k hk ?_
            rw [hst2]
            exact mem_keys_insert_of hin

/-- Mapping keys over an appended capture. -/
theorem map_key_append (l : List Capture) (c : Capture) :
    (l ++ [c]).map Capture.key = l.map Capture.key ++ [c.key] := by
  rw [List.map_append]
  rfl

/-- A fold of erasures yields a sublist. -/
theorem foldl_erase_sublist : ∀ (hs : List FieldValue) {A : Type} (ex : List (String × A)),
    List.Sublist (hs.foldl (fun e fv => btreeErase fv.key_name e) ex) ex
  | [], _, ex => List.Sublist.refl ex
  | h :: rest, _, ex => by
    rw [List.foldl_cons]
    exact (foldl_erase_sublist rest _).trans (btreeErase_sublist ex)

/-- Successful hole processing: the captured keys are the state's keys
followed by the hole names in template order, and the remaining pool is the
original pool minus the hole names. -/
theorem processHoles_ok_shape : ∀ {hs : List FieldValue} {st : EmitState}
    {ex : List (String × FieldValue)} {st2 : EmitState} {ex2 : List (String × FieldValue)},
    (∀ p ∈ ex, (p.2).key_name = p.1) →
    processHoles hs st ex = .ok (st2, ex2) →
    st2.field_values.map Capture.key =
        st.field_values.map Capture.key ++ hs.map FieldValue.key_name ∧
      ex2 = hs.foldl (fun e fv => btreeErase fv.key_name e) ex ∧
      (∀ p ∈ ex2, (p.2).key_name = p.1)
  | [], st, ex, st2, ex2, hex, h => by
    rw [processHoles] at h
    have h3 := Except.ok.inj h
    simp only [Prod.mk.injEq] at h3
    refine ⟨?_, ?_, ?_⟩
    · rw [← h3.1, List.map_nil, List.append_nil]
    · rw [← h3.2, List.foldl_nil]
    · rw [← h3.2]
      exact hex
  | fv :: rest, st, ex, st2, ex2, hex, h => by
    rw [processHoles] at h
    cases hr : resolveHole ex fv with
    | error e =>
      simp only [hr] at h
      exact Except.noConfusion h
    | ok p =>
      obtain ⟨fv2, ex3⟩ := p
      simp only [hr] at h
      cases hp : push_field_value st fv.key_name fv2 with
      | error e =>
        simp only [hp] at h
        exact Except.noConfusion h
      | ok st3 =>
        simp only [hp] at h
        obtain ⟨hfresh, hst3⟩ := push_ok_elim hp
        rcases resolveHole_ok hr with ⟨hg, hfv2, hex3⟩ | ⟨hg, hex3, hbare⟩
        · have hexx : ∀ p ∈ ex3, (p.2).key_name = p.1 := by
            rw [hex3]
            exact hex
          obtain ⟨hf, hexeq, hinv⟩ := processHoles_ok_shape hexx h
          refine ⟨?_, ?_, hinv⟩
          · rw [hf, hst3]
            rw [show (pushState st fv.key_name fv2).field_values =
                st.field_values ++ [⟨fv2.attrs, fv2.key, fv2.expr⟩] from rfl]
            rw [map_key_append, List.append_assoc, List.singleton_append, List.map_cons]
            rw [show (⟨fv2.attrs, fv2.key, fv2.expr⟩ : Capture).key = fv2.key_name from rfl, hfv2]
          · rw [List.foldl_cons, btreeGet_none_erase hg, ← hex3]
            exact hexeq
        · have hmem := btreeGet_some_mem hg
          have hk2 : fv2.key_name = fv.key_name := hex (fv.key_name, fv2) hmem
          have hinv3 : ∀ p ∈ ex3, (p.2).key_name = p.1 := by
            intro p hp2
            rw [hex3] at hp2
            exact hex p ((btreeErase_sublist ex).subset hp2)
          obtain ⟨hf, hexeq, hinv⟩ := processHoles_ok_shape hinv3 h
          refine ⟨?_, ?_, hinv⟩
          · rw [hf, hst3]
            rw [show (pushState st fv.key_name fv2).field_values =
                st.field_values ++ [⟨fv2.attrs, fv2.key, fv2.expr⟩] from rfl]
            rw [map_key_append, List.append_assoc, List.singleton_append, List.map_cons]
            rw [show (⟨fv2.attrs, fv2.key, fv2.expr⟩ : Capture).key = fv2.key_name from rfl]
            rw [hk2]
          · rw [List.foldl_cons, ← hex3]
            exact hexeq

/-- Successful pushing of the remaining extras: their keys are appended in
pool order. -/
theorem pushExtras_ok_shape : ∀ {rem : List (String × FieldValue)} {st st2 : EmitState},
    (∀ p ∈ rem, (p.2).key_name = p.1) →
    pushExtras rem st = .ok st2 →
    st2.field_values.map Capture.key = st.field_values.map Capture.key ++ keysOf rem
  | [], st, st2, _, h => by
    rw [pushExtras] at h
    rw [← Except.ok.inj h]
    rw [show keysOf ([] : List (String × FieldValue)) = [] from rfl, List.append_nil]
  | (k, fv) :: rest, st, st2, hinv, h => by
    rw [pushExtras] at h
    cases hp : push_field_value st k fv with
    | error e =>
      simp only [hp] at h
      exact Except.noConfusion h
    | ok st3 =>
      simp only [hp] at h
      obtain ⟨_, hst3⟩ := push_ok_elim hp
      have hIH := pushExtras_ok_shape (fun p hp2 => hinv p (List.mem_cons_of_mem _ hp2)) h
      rw [hIH, hst3]
      rw [show (pushState st k fv).field_values =
          st.field_values ++ [⟨fv.attrs, fv.key, fv.expr⟩] from rfl]
      rw [map_key_append, List.append_assoc, List.singleton_append]
      rw [show keysOf ((k, fv) :: rest) = k :: keysOf rest from rfl]
      rw [show (⟨fv.attrs, fv.key, fv.expr⟩ : Capture).key = fv.key_name from rfl]
      rw [hinv (k, fv) (List.mem_cons_self _ _)]

/-- Keys after `btreeInsert` are the inserted key or old keys. -/
theorem mem_keys_insert_elim {A : Type} {k x : String} {v : A} {m : List (String × A)}
    (h : x ∈ keysOf (btreeInsert k v m)) : x = k ∨ x ∈ keysOf m := by
  rcases List.mem_map.mp h with ⟨p, hp, hpx⟩
  rcases btreeInsert_mem hp with hp2 | hp2
  · left
    rw [← hpx, hp2]
  · right
    exact List.mem_map.mpr ⟨p, hp2, hpx⟩

/-- Hole processing with an empty pool always succeeds on distinct fresh
hole names, each hole keeping its own attributes and expression. -/
theorem processHoles_no_extras : ∀ {hs : List FieldValue} {st : EmitState},
    (hs.map FieldValue.key_name).Nodup →
    (∀ k ∈ hs.map FieldValue.key_name, k ∉ pushedKeys st) →
    ∃ st2, processHoles hs st [] = .ok (st2, []) ∧
      st2.field_values = st.field_values ++
        hs.map (fun fv => (⟨fv.attrs, fv.key, fv.expr⟩ : Capture))
  | [], st, _, _ => ⟨st, rfl, by rw [List.map_nil, List.append_nil]⟩
  | fv :: rest, st, hnd, hdis => by
    have hfresh : fv.key_name ∉ pushedKeys st :=
      hdis _ (by rw [List.map_cons]; exact List.mem_cons_self _ _)
    have hp := @push_ok st fv.key_name fv hfresh
    obtain ⟨hnd1, hnd2⟩ := List.nodup_cons.mp (by rwa [List.map_cons] at hnd)
    have hdis2 : ∀ k2 ∈ rest.map FieldValue.key_name,
        k2 ∉ pushedKeys (pushState st fv.key_name fv) := by
      intro k2 hk2 hin
      rcases mem_keys_insert_elim hin with he | hin2
      · exact hnd1 (he ▸ hk2)
      · exact hdis k2 (by rw [List.map_cons]; exact List.mem_cons_of_mem _ hk2) hin2
    obtain ⟨st4, hrec, hfields⟩ := processHoles_no_extras hnd2 hdis2
    refine ⟨st4, ?_, ?_⟩
    · show (match push_field_value st fv.key_name fv with
        | Except.error e => Except.error e
        | Except.ok st2 => processHoles rest st2 []) = Except.ok (st4, [])
      rw [hp]
      exact hrec
    · rw [hfields]
      rw [show (pushState st fv.key_name fv).field_values =
          st.field_values ++ [⟨fv.attrs, fv.key, fv.expr⟩] from rfl]
      rw [List.append_assoc, List.singleton_append, List.map_cons]

/-- C2 (amended): two template holes sharing a name make record
construction fail fast before any record is produced. -/
theorem claim_c2_amended (t : Template)
    (hnd : ¬ (t.holes.map FieldValue.key_name).Nodup) :
    (expand_tokens t).isOk = false := by
  unfold expand_tokens
  cases hph : processHoles t.holes initState (collectExtras t.after) with
  | error e => rfl
  | ok r => exact absurd (processHoles_ok_nodup hph).1 hnd

/-- Witness for the amended C2 at the template with two holes named `a`. -/
theorem claim_c2_amended_witness :
    (¬ (templateHoleDup.holes.map FieldValue.key_name).Nodup) ∧
      (expand_tokens templateHoleDup).isOk = false :=
  ⟨by decide, claim_c2_amended templateHoleDup (by decide)⟩

/-- C3 (amended): on success the rendering order lists the
template-anchored fields first, in template hole order, followed by the
extras not referenced by any hole in ascending name order (the iteration
order of the `BTreeMap` pool), not in original supply order. -/
theorem claim_c3_amended (t : Template) (e : Emit) (h : expand_tokens t = .ok e) :
    renderKeys e = t.holes.map FieldValue.key_name ++
        (keysOf (collectExtras t.after)).filter
          (fun x => !(memB x (t.holes.map FieldValue.key_name))) ∧
      List.Pairwise (fun a b => strLt a b = true)
        ((keysOf (collectExtras t.after)).filter
          (fun x => !(memB x (t.holes.map FieldValue.key_name)))) := by
  unfold expand_tokens at h
  cases hph : processHoles t.holes initState (collectExtras t.after) with
  | error e2 =>
    rw [hph] at h
    exact Except.noConfusion h
  | ok p =>
    obtain ⟨st1, rem⟩ := p
    simp only [hph] at h
    cases hpe : pushExtras rem st1 with
    | error e2 =>
      simp only [hpe] at h
      exact Except.noConfusion h
    | ok st2 =>
      simp only [hpe] at h
      have hinv0 : ∀ p ∈ collectExtras t.after, (p.2).key_name = p.1 :=
        collect_pred _ _ (fun fv _ => rfl)
      obtain ⟨hf1, hexeq, hinv1⟩ := processHoles_ok_shape hinv0 hph
      have hf2 := pushExtras_ok_shape hinv1 hpe
      have hkeys : keysOf rem = (keysOf (collectExtras t.after)).filter
          (fun x => !(memB x (t.holes.map FieldValue.key_name))) := by
        rw [hexeq]
        exact foldl_erase_keys t.holes _ (collect_nodup_keys t.after)
      have he : e = { field_values := st2.field_values
                    , field_bindings := st2.field_bindings
                    , sorted_field_bindings := st2.sorted_field_bindings
                    , target := targetOf t
                    , parts := t.parts } := (Except.ok.inj h).symm
      constructor
      · rw [renderKeys, he]
        rw [show ({ field_values := st2.field_values
                  , field_bindings := st2.field_bindings
                  , sorted_field_bindings := st2.sorted_field_bindings
                  , target := targetOf t
                  , parts := t.parts } : Emit).field_values = st2.field_values from rfl]
        rw [hf2, hf1, hkeys]
        rw [show (initState.field_values.map Capture.key) = [] from rfl, List.nil_append]
      · have hsub : List.Sublist rem (collectExtras t.after) := by
          rw [hexeq]
          exact foldl_erase_sublist t.holes _
        have hsort : List.Pairwise (fun p q => strLt p.1 q.1 = true) rem :=
          (collect_sorted t.after).sublist hsub
        rw [← hkeys]
        exact List.Pairwise.map Prod.fst (fun a b hab => hab) hsort

/-- Witness for the amended C3 at a template with one hole `x` and the
unreferenced extras `b`, `a`: the fields render as `x`, then `a`, `b`. -/
theorem claim_c3_amended_witness :
    expand_tokens templateC3 = .ok emitC3 ∧
      (renderKeys emitC3 = templateC3.holes.map FieldValue.key_name ++
          (keysOf (collectExtras templateC3.after)).filter
            (fun x => !(memB x (templateC3.holes.map FieldValue.key_name))) ∧
        List.Pairwise (fun a b => strLt a b = true)
          ((keysOf (collectExtras templateC3.after)).filter
            (fun x => !(memB x (templateC3.holes.map FieldValue.key_name))))) :=
  ⟨rfl, claim_c3_amended templateC3 emitC3 rfl⟩

/-- C4 (amended): a hole whose name has no matching extra entry does not
fail; it resolves to its own field-value, capturing its own expression (for
a bare hole, the ambient binding of the same name).  In particular a
template with no extras at all and distinct hole names always expands
successfully, and there is no unresolved-hole failure in `expand_tokens`. -/
theorem claim_c4_amended (t : Template) (hafter : t.after = [])
    (hnd : (t.holes.map FieldValue.key_name).Nodup) :
    ∃ e, expand_tokens t = .ok e ∧
      e.field_values = t.holes.map (fun fv => (⟨fv.attrs, fv.key, fv.expr⟩ : Capture)) := by
  have hdis : ∀ k ∈ t.holes.map FieldValue.key_name, k ∉ pushedKeys initState := by
    intro k _ hin
    exact absurd hin (List.not_mem_nil k)
  obtain ⟨st2, hph, hfields⟩ := processHoles_no_extras hnd hdis
  refine ⟨{ field_values := st2.field_values
          , field_bindings := st2.field_bindings
          , sorted_field_bindings := st2.sorted_field_bindings
          , target := targetOf t
          , parts := t.parts }, ?_, ?_⟩
  · unfold expand_tokens
    rw [hafter]
    rw [show collectExtras [] = [] from rfl]
    rw [hph]
    rfl
  · show st2.field_values = _
    rw [hfields]
    exact List.nil_append _

/-- Witness for the amended C4 at the template `"Text and {a}"` with no
extras. -/
theorem claim_c4_amended_witness :
    templateC4.after = [] ∧ (templateC4.holes.map FieldValue.key_name).Nodup ∧
      ∃ e, expand_tokens templateC4 = .ok e ∧
        e.field_values = templateC4.holes.map
          (fun fv => (⟨fv.attrs, fv.key, fv.expr⟩ : Capture)) :=
  ⟨rfl, by decide, claim_c4_amended templateC4 rfl (by decide)⟩

/-- If some hole is not a bare reference to its own key while its key is
in the pool or already pushed, processing fails. -/
theorem processHoles_fail : ∀ {hs : List FieldValue} {st : EmitState}
    {ex : List (String × FieldValue)} {fv : FieldValue},
    fv ∈ hs → ¬ isBare fv.key_name fv →
    (fv.key_name ∈ keysOf ex ∨ fv.key_name ∈ pushedKeys st) →
    (processHoles hs st ex).isOk = false
  | [], _, _, _, hmem, _, _ => absurd hmem (List.not_mem_nil _)
  | h0 :: rest, st, ex, fv, hmem, hnb, hloc => by
    rw [processHoles]
    rcases List.mem_cons.mp hmem with rfl | hmem2
    · by_cases hget : ∃ v, btreeGet fv.key_name ex = some v
      · obtain ⟨v, hv⟩ := hget
        obtain ⟨msg, herr⟩ := resolveHole_not_bare hv hnb
        simp only [herr]
        rfl
      · have hnone : btreeGet fv.key_name ex = none := by
          cases hg2 : btreeGet fv.key_name ex with
          | none => rfl
          | some v => exact absurd ⟨v, hg2⟩ hget
        have hpk : fv.key_name ∈ pushedKeys st := by
          rcases hloc with hk | hk
          · exact absurd hk (btreeGet_none.mp hnone)
          · exact hk
        have hres : resolveHole ex fv = .ok (fv, ex) := by
          unfold resolveHole
          rw [hnone]
        simp only [hres]
        obtain ⟨v2, hv2⟩ := mem_keys_some hpk
        have hpushf : push_field_value st fv.key_name fv =
            .error "keys cannot be duplicated" := by
          unfold push_field_value
          rw [hv2]
        simp only [hpushf]
        rfl
    · cases hr : resolveHole ex h0 with
      | error e =>
        simp only [hr]
        rfl
      | ok p =>
        obtain ⟨fv2, ex2⟩ := p
        simp only [hr]
        cases hp : push_field_value st h0.key_name fv2 with
        | error e =>
          simp only [hp]
          rfl
        | ok st2 =>
          simp only [hp]
          obtain ⟨hfresh, hst2⟩ := push_ok_elim hp
          refine processHoles_fail hmem2 hnb ?_
          rcases resolveHole_ok hr with ⟨hg, hfveq, hexeq⟩ | ⟨hg, hexeq, hbare⟩
          · rcases hloc with hk | hk
            · left
              rw [hexeq]
              exact hk
            · right
              rw [hst2]
              exact mem_keys_insert_of hk
          · by_cases heq : fv.key_name = h0.key_name
            · right
              rw [hst2, heq]
              exact mem_keys_insert_self
            · rcases hloc with hk | hk
              · left
                rw [hexeq]
                exact btreeErase_mem_keys hk heq
              · right
                rw [hst2]
                exact mem_keys_insert_of hk

/-- A template containing a hole that is not a bare self-reference, whose
name also occurs among the extras, never expands successfully. -/
theorem expand_fail_of_hole (t : Template) (fv : FieldValue) (hmem : fv ∈ t.holes)
    (hnb : ¬ isBare fv.key_name fv)
    (hex : fv.key_name ∈ t.after.map FieldValue.key_name) :
    (expand_tokens t).isOk = false := by
  unfold expand_tokens
  cases hph : processHoles t.holes initState (collectExtras t.after) with
  | error e => rfl
  | ok r =>
    have hfail := @processHoles_fail t.holes initState (collectExtras t.after) fv hmem hnb
      (Or.inl (mem_keys_collect hex))
    rw [hph] at hfail
    exact Bool.noConfusion hfail

/-- C5: a template hole that carries an explicit inline value expression
(one that is not a path, such as the literal in `{a: 1}`) whose name also
has a matching extra entry makes the merge fail fast; no record is
produced. -/
theorem claim_c5 (t : Template) (fv : FieldValue) (hmem : fv ∈ t.holes)
    (hval : isPathE fv.expr = false)
    (hex : fv.key_name ∈ t.after.map FieldValue.key_name) :
    (expand_tokens t).isOk = false := by
  have hnb : ¬ isBare fv.key_name fv := by
    intro hb
    obtain ⟨_, hi⟩ := hb
    cases hexpr : fv.expr with
    | path segs =>
      rw [hexpr] at hval
      simp [isPathE] at hval
    | lit n =>
      rw [hexpr] at hi
      simp [exprIdent] at hi
    | other d =>
      rw [hexpr] at hi
      simp [exprIdent] at hi
  exact expand_fail_of_hole t fv hmem hnb hex

/-- Witness for C5 at the hole `{a: 1}` with the extra `a: 2`. -/
theorem claim_c5_witness :
    ((⟨[], "a", .lit 1⟩ : FieldValue) ∈ templateC5.holes) ∧
      isPathE (⟨[], "a", .lit 1⟩ : FieldValue).expr = false ∧
      (⟨[], "a", .lit 1⟩ : FieldValue).key_name ∈
        templateC5.after.map FieldValue.key_name ∧
      (expand_tokens templateC5).isOk = false :=
  ⟨by decide, rfl, by decide,
    claim_c5 templateC5 ⟨[], "a", .lit 1⟩ (by decide) rfl (by decide)⟩

/-- C10: a hole whose name has a matching extra entry and which carries no
inline value expression (its expression is a path) still fails fast, rather
than consuming the extra, whenever it carries an attribute of its own or
its path is not the plain identifier equal to its key name. -/
theorem claim_c10 (t : Template) (fv : FieldValue) (hmem : fv ∈ t.holes)
    (hex : fv.key_name ∈ t.after.map FieldValue.key_name)
    (hdev : ∃ segs, fv.expr = .path segs ∧
      (fv.attrs ≠ [] ∨ pathIdent segs ≠ some fv.key_name)) :
    (expand_tokens t).isOk = false := by
  obtain ⟨segs, hexpr, hdev2⟩ := hdev
  have hnb : ¬ isBare fv.key_name fv := by
    intro hb
    obtain ⟨ha, hi⟩ := hb
    rw [hexpr] at hi
    rcases hdev2 with hd | hd
    · exact hd ha
    · exact hd hi
  exact expand_fail_of_hole t fv hmem hnb hex

/-- Witness for C10 at the attributed hole `{#[debug] a}` with the extra
`a: 2`. -/
theorem claim_c10_witness :
    ((⟨["debug"], "a", .path ["a"]⟩ : FieldValue) ∈ templateC10.holes) ∧
      (⟨["debug"], "a", .path ["a"]⟩ : FieldValue).key_name ∈
        templateC10.after.map FieldValue.key_name ∧
      (expand_tokens templateC10).isOk = false :=
  ⟨by decide, by decide,
    claim_c10 templateC10 ⟨["debug"], "a", .path ["a"]⟩ (by decide) (by decide)
      ⟨["a"], rfl, Or.inl (by decide)⟩⟩

/-- A bare hole with a matching pool entry consumes that entry and removes
it from the pool. -/
theorem resolveHole_bare (ex : List (String × FieldValue)) (fv extra_fv : FieldValue)
    (hb : isBare fv.key_name fv) (hg : btreeGet fv.key_name ex = some extra_fv) :
    resolveHole ex fv = .ok (extra_fv, btreeErase fv.key_name ex) := by
  obtain ⟨ha, hi⟩ := hb
  unfold resolveHole
  simp only [hg]
  cases hexpr : fv.expr with
  | path segs =>
    simp only [hexpr]
    rw [hexpr] at hi
    rw [show exprIdent (Expr.path segs) = pathIdent segs from rfl] at hi
    rw [if_pos ha, if_pos hi]
  | lit n =>
    rw [hexpr] at hi
    simp [exprIdent] at hi
  | other d =>
    rw [hexpr] at hi
    simp [exprIdent] at hi

/-- A bare hole is the canonical bare reference to its key. -/
theorem isBare_eq : ∀ (fv : FieldValue), isBare fv.key_name fv → fv = mkBare fv.key_name
  | ⟨attrs, key, expr⟩, h => by
    obtain ⟨ha, hi⟩ := h
    cases hexpr : expr with
    | path segs =>
      rw [hexpr] at hi
      rw [show exprIdent (Expr.path segs) = pathIdent segs from rfl] at hi
      cases segs with
      | nil => exact absurd hi (by simp [pathIdent])
      | cons s rest =>
        cases rest with
        | nil =>
          have hs : s = key := Option.some.inj hi
          have ha2 : attrs = [] := ha
          rw [ha2, hs]
          rfl
        | cons s2 r2 => exact absurd hi (by simp [pathIdent])
    | lit n =>
      rw [hexpr] at hi
      simp [exprIdent] at hi
    | other d =>
      rw [hexpr] at hi
      simp [exprIdent] at hi

/-- C6: a bare template hole whose name has a matching extra entry
consumes that entry: resolution succeeds, the resolved field takes the
extra entry's value producer and attributes, and the entry is removed from
the pool; in particular `"Text and {a}"` with one extra `a` expands to a
single field carrying the extra's expression and attributes, for any such
expression and attribute list. -/
theorem claim_c6 :
    (∀ (ex : List (String × FieldValue)) (fv extra_fv : FieldValue),
        isBare fv.key_name fv → btreeGet fv.key_name ex = some extra_fv →
        resolveHole ex fv = .ok (extra_fv, btreeErase fv.key_name ex)) ∧
      (∀ (v : Expr) (attrs : List String),
        expand_tokens (templateC6 v attrs) = .ok (emitC6 v attrs)) := by
  constructor
  · exact resolveHole_bare
  · intro v attrs
    rfl

/-- Witness for C6 at the hole `{a}` with the extra `a: 42`. -/
theorem claim_c6_witness :
    isBare (mkBare "a").key_name (mkBare "a") ∧
      resolveHole [("a", (⟨[], "a", .lit 42⟩ : FieldValue))] (mkBare "a") =
        .ok (⟨[], "a", .lit 42⟩,
          btreeErase (mkBare "a").key_name [("a", ⟨[], "a", .lit 42⟩)]) :=
  ⟨by decide, claim_c6.1 _ _ _ (by decide) rfl⟩

/-- Every key of `collectExtras` is a supplied name. -/
theorem keys_collect_sub {l : List FieldValue} {x : String}
    (hx : x ∈ keysOf (collectExtras l)) : x ∈ l.map FieldValue.key_name := by
  rcases List.mem_map.mp hx with ⟨p, hp, hpx⟩
  have hmem := collect_pred (fun q => q.1 ∈ l.map FieldValue.key_name) l
    (fun fv hfv => List.mem_map.mpr ⟨fv, hfv, rfl⟩) p hp
  rw [← hpx]
  exact hmem

/-- Hole processing over an all-bare pool with all-bare distinct fresh
holes succeeds, each capture being the bare reference of the hole's name
(whether taken from the pool or from the hole itself). -/
theorem processHoles_allbare : ∀ {hs : List FieldValue} {st : EmitState}
    {ex : List (String × FieldValue)},
    (∀ fv ∈ hs, isBare fv.key_name fv) →
    (∀ p ∈ ex, p.2 = mkBare p.1) →
    (hs.map FieldValue.key_name).Nodup →
    (∀ k ∈ hs.map FieldValue.key_name, k ∉ pushedKeys st) →
    ∃ st2 ex2, processHoles hs st ex = .ok (st2, ex2) ∧
      st2.field_values = st.field_values ++
        hs.map (fun fv => (⟨[], fv.key_name, Expr.path [fv.key_name]⟩ : Capture))
  | [], st, ex, _, _, _, _ => ⟨st, ex, rfl, by rw [List.map_nil, List.append_nil]⟩
  | fv :: rest, st, ex, hbare, hpool, hnd, hdis => by
    have hb : isBare fv.key_name fv := hbare fv (List.mem_cons_self _ _)
    have hfveq := isBare_eq fv hb
    have hfresh : fv.key_name ∉ pushedKeys st :=
      hdis _ (by rw [List.map_cons]; exact List.mem_cons_self _ _)
    obtain ⟨hnd1, hnd2⟩ := List.nodup_cons.mp (by rwa [List.map_cons] at hnd)
    have hbare2 : ∀ g ∈ rest, isBare g.key_name g :=
      fun g hg2 => hbare g (List.mem_cons_of_mem _ hg2)
    cases hg : btreeGet fv.key_name ex with
    | some extra =>
      have hextra : extra = mkBare fv.key_name := hpool (fv.key_name, extra) (btreeGet_some_mem hg)
      have hres := resolveHole_bare ex fv extra hb hg
      rw [processHoles]
      simp only [hres]
      have hp := @push_ok st fv.key_name extra hfresh
      simp only [hp]
      have hpool2 : ∀ p ∈ btreeErase fv.key_name ex, p.2 = mkBare p.1 :=
        fun p hp2 => hpool p ((btreeErase_sublist ex).subset hp2)
      have hdis2 : ∀ k2 ∈ rest.map FieldValue.key_name,
          k2 ∉ pushedKeys (pushState st fv.key_name extra) := by
        intro k2 hk2 hin
        rcases mem_keys_insert_elim hin with he | hin2
        · exact hnd1 (he ▸ hk2)
        · exact hdis k2 (by rw [List.map_cons]; exact List.mem_cons_of_mem _ hk2) hin2
      obtain ⟨st4, ex4, hrec, hfields⟩ := processHoles_allbare hbare2 hpool2 hnd2 hdis2
      refine ⟨st4, ex4, hrec, ?_⟩
      rw [hfields]
      rw [show (pushState st fv.key_name extra).field_values =
          st.field_values ++ [⟨extra.attrs, extra.key, extra.expr⟩] from rfl]
      rw [hextra, List.append_assoc, List.singleton_append, List.map_cons]
      rfl
    | none =>
      have hres : resolveHole ex fv = .ok (fv, ex) := by
        unfold resolveHole
        rw [hg]
      rw [processHoles]
      simp only [hres]
      have hp := @push_ok st fv.key_name fv hfresh
      simp only [hp]
      have hdis2 : ∀ k2 ∈ rest.map FieldValue.key_name,
          k2 ∉ pushedKeys (pushState st fv.key_name fv) := by
        intro k2 hk2 hin
        rcases mem_keys_insert_elim hin with he | hin2
        · exact hnd1 (he ▸ hk2)
        · exact hdis k2 (by rw [List.map_cons]; exact List.mem_cons_of_mem _ hk2) hin2
      obtain ⟨st4, ex4, hrec, hfields⟩ := processHoles_allbare hbare2 hpool hnd2 hdis2
      refine ⟨st4, ex4, hrec, ?_⟩
      rw [hfields]
      rw [show (pushState st fv.key_name fv).field_values =
          st.field_values ++ [⟨fv.attrs, fv.key, fv.expr⟩] from rfl]
      have hcap : (⟨fv.attrs, fv.key, fv.expr⟩ : Capture) =
          ⟨[], fv.key_name, Expr.path [fv.key_name]⟩ := by
        rw [hfveq]
        rfl
      rw [hcap, List.append_assoc, List.singleton_append, List.map_cons]

/-- C7: for a template whose holes are all bare with distinct names and an
extra list supplying exactly those names as bare references, resolution
succeeds and the rendering-order fields are exactly the extras' value
producers (the bare references), ordered by the holes' order of appearance
in the template. -/
theorem claim_c7 (t : Template)
    (hbare : ∀ fv ∈ t.holes, isBare fv.key_name fv)
    (hnd : (t.holes.map FieldValue.key_name).Nodup)
    (habare : ∀ fv ∈ t.after, isBare fv.key_name fv)
    (hperm : List.Perm (t.after.map FieldValue.key_name)
      (t.holes.map FieldValue.key_name)) :
    ∃ e, expand_tokens t = .ok e ∧
      e.field_values = t.holes.map
        (fun fv => (⟨[], fv.key_name, Expr.path [fv.key_name]⟩ : Capture)) := by
  have hpool : ∀ p ∈ collectExtras t.after, p.2 = mkBare p.1 :=
    collect_pred _ _ (fun fv hfv => isBare_eq fv (habare fv hfv))
  have hdis : ∀ k ∈ t.holes.map FieldValue.key_name, k ∉ pushedKeys initState :=
    fun k _ hin => absurd hin (List.not_mem_nil k)
  obtain ⟨st2, ex2, hph, hfields⟩ := processHoles_allbare hbare hpool hnd hdis
  have hinv0 : ∀ p ∈ collectExtras t.after, (p.2).key_name = p.1 :=
    collect_pred _ _ (fun fv _ => rfl)
  obtain ⟨_, hexeq, _⟩ := processHoles_ok_shape hinv0 hph
  have hkeys : keysOf ex2 = [] := by
    rw [hexeq, foldl_erase_keys t.holes _ (collect_nodup_keys t.after)]
    refine List.filter_eq_nil_iff.mpr (fun x hx => ?_)
    have hx3 : x ∈ t.holes.map FieldValue.key_name := hperm.subset (keys_collect_sub hx)
    rw [memB_iff.mpr hx3]
    simp
  have hex2 : ex2 = [] := by
    cases ex2 with
    | nil => rfl
    | cons p r => exact absurd hkeys (by simp [keysOf])
  rw [hex2] at hph
  refine ⟨{ field_values := st2.field_values
          , field_bindings := st2.field_bindings
          , sorted_field_bindings := st2.sorted_field_bindings
          , target := targetOf t
          , parts := t.parts }, ?_, ?_⟩
  · unfold expand_tokens
    rw [hph]
    rfl
  · show st2.field_values = _
    rw [hfields]
    exact List.nil_append _

/-- Witness for C7 at the bare holes `b`, `a` with the bare extras `a`,
`b`. -/
theorem claim_c7_witness :
    (∀ fv ∈ templateC7.holes, isBare fv.key_name fv) ∧
      (templateC7.holes.map FieldValue.key_name).Nodup ∧
      (∀ fv ∈ templateC7.after, isBare fv.key_name fv) ∧
      List.Perm (templateC7.after.map FieldValue.key_name)
        (templateC7.holes.map FieldValue.key_name) ∧
      ∃ e, expand_tokens templateC7 = .ok e ∧
        e.field_values = templateC7.holes.map
          (fun fv => (⟨[], fv.key_name, Expr.path [fv.key_name]⟩ : Capture)) :=
  ⟨by decide, by decide, by decide, by decide,
    claim_c7 templateC7 (by decide) (by decide) (by decide) (by decide)⟩

/-- The initial state satisfies the invariant. -/
theorem initState_inv : StInv initState :=
  ⟨rfl, List.Pairwise.nil, fun p hp => absurd hp (List.not_mem_nil p),
    List.Perm.nil, List.Perm.nil⟩

/-- `push_field_value` preserves the invariant when the pushed field-value
is named after its key. -/
theorem push_inv {st : EmitState} {k : String} {fv : FieldValue} {st2 : EmitState}
    (hkey : fv.key = k) (hinv : StInv st) (h : push_field_value st k fv = .ok st2) :
    StInv st2 := by
  obtain ⟨hfresh, hst2⟩ := push_ok_elim h
  obtain ⟨hI1, hI2, hI3, hI4, hI5⟩ := hinv
  have hperm := @btreeInsert_perm Nat k st.field_index st.sorted_field_bindings hfresh
  rw [hst2]
  refine ⟨?_, ?_, ?_, ?_, ?_⟩
  · show st.field_index + 1 = (st.field_values ++ [(⟨fv.attrs, fv.key, fv.expr⟩ : Capture)]).length
    rw [List.length_append, hI1]
    rfl
  · exact btreeInsert_sorted hI2
  · intro p hp
    rcases btreeInsert_mem hp with hp2 | hp2
    · refine ⟨⟨fv.attrs, fv.key, fv.expr⟩, ?_, ?_⟩
      · show (st.field_values ++ [(⟨fv.attrs, fv.key, fv.expr⟩ : Capture)])[p.2]? = _
        rw [hp2]
        show (st.field_values ++ [(⟨fv.attrs, fv.key, fv.expr⟩ : Capture)])[st.field_index]? = _
        rw [hI1]
        exact List.getElem?_concat_length _ _
      · rw [hp2]
        exact hkey
    · obtain ⟨c, hc1, hc2⟩ := hI3 p hp2
      have hlt : p.2 < st.field_values.length := by
        rcases List.getElem?_eq_some.mp hc1 with ⟨h5, _⟩
        exact h5
      refine ⟨c, ?_, hc2⟩
      show (st.field_values ++ [(⟨fv.attrs, fv.key, fv.expr⟩ : Capture)])[p.2]? = _
      rw [List.getElem?_append_left hlt]
      exact hc1
  · show List.Perm ((btreeInsert k st.field_index st.sorted_field_bindings).map Prod.snd)
      (List.range (st.field_values ++ [(⟨fv.attrs, fv.key, fv.expr⟩ : Capture)]).length)
    refine (hperm.map Prod.snd).trans ?_
    rw [List.length_append, hI1]
    rw [show st.field_values.length + [(⟨fv.attrs, fv.key, fv.expr⟩ : Capture)].length =
        st.field_values.length + 1 from rfl]
    rw [List.range_succ]
    exact (hI4.cons _).trans (List.perm_append_singleton _ _).symm
  · show List.Perm ((btreeInsert k st.field_index st.sorted_field_bindings).map Prod.fst)
      ((st.field_values ++ [(⟨fv.attrs, fv.key, fv.expr⟩ : Capture)]).map Capture.key)
    refine (hperm.map Prod.fst).trans ?_
    rw [map_key_append]
    rw [show (⟨fv.attrs, fv.key, fv.expr⟩ : Capture).key = fv.key from rfl, hkey]
    exact (hI5.cons _).trans (List.perm_append_singleton _ _).symm

/-- Hole processing preserves the invariant. -/
theorem processHoles_inv : ∀ {hs : List FieldValue} {st : EmitState}
    {ex : List (String × FieldValue)} {st2 : EmitState} {ex2 : List (String × FieldValue)},
    StInv st → (∀ p ∈ ex, (p.2).key_name = p.1) →
    processHoles hs st ex = .ok (st2, ex2) → StInv st2
  | [], st, ex, st2, ex2, hinv, _, h => by
    rw [processHoles] at h
    have h3 := Except.ok.inj h
    simp only [Prod.mk.injEq] at h3
    rw [← h3.1]
    exact hinv
  | fv :: rest, st, ex, st2, ex2, hinv, hex, h => by
    rw [processHoles] at h
    cases hr : resolveHole ex fv with
    | error e =>
      simp only [hr] at h
      exact Except.noConfusion h
    | ok p =>
      obtain ⟨fv2, ex3⟩ := p
      simp only [hr] at h
      cases hp : push_field_value st fv.key_name fv2 with
      | error e =>
        simp only [hp] at h
        exact Except.noConfusion h
      | ok st3 =>
        simp only [hp] at h
        rcases resolveHole_ok hr with ⟨hg, hfveq, hexeq⟩ | ⟨hg, hexeq, hbare⟩
        · have hkey : fv2.key = fv.key_name := by
            rw [hfveq]
            rfl
          have hinv3 := push_inv hkey hinv hp
          have hex3 : ∀ p ∈ ex3, (p.2).key_name = p.1 := by
            rw [hexeq]
            exact hex
          exact processHoles_inv hinv3 hex3 h
        · have hkey : fv2.key = fv.key_name := hex (fv.key_name, fv2) (btreeGet_some_mem hg)
          have hinv3 := push_inv hkey hinv hp
          have hex3 : ∀ p ∈ ex3, (p.2).key_name = p.1 := by
            intro p hp2
            rw [hexeq] at hp2
            exact hex p ((btreeErase_sublist ex).subset hp2)
          exact processHoles_inv hinv3 hex3 h

/-- Pushing the remaining extras preserves the invariant. -/
theorem pushExtras_inv : ∀ {rem : List (String × FieldValue)} {st st2 : EmitState},
    StInv st → (∀ p ∈ rem, (p.2).key_name = p.1) →
    pushExtras rem st = .ok st2 → StInv st2
  | [], st, st2, hinv, _, h => by
    rw [pushExtras] at h
    rw [← Except.ok.inj h]
    exact hinv
  | (k, fv) :: rest, st, st2, hinv, hrem, h => by
    rw [pushExtras] at h
    cases hp : push_field_value st k fv with
    | error e =>
      simp only [hp] at h
      exact Except.noConfusion h
    | ok st3 =>
      simp only [hp] at h
      have hkey : fv.key = k := hrem (k, fv) (List.mem_cons_self _ _)
      exact pushExtras_inv (push_inv hkey hinv hp)
        (fun p hp2 => hrem p (List.mem_cons_of_mem _ hp2)) h

/-- A present element is found within bounds by `posOf`. -/
theorem posOf_lt {n : Nat} : ∀ {l : List Nat}, n ∈ l → posOf n l < l.length
  | [], h => absurd h (List.not_mem_nil n)
  | m :: rest, h => by
    rw [posOf]
    by_cases he : m = n
    · rw [if_pos he]
      exact Nat.succ_pos _
    · rw [if_neg he]
      have hmem : n ∈ rest := by
        rcases List.mem_cons.mp h with h2 | h2
        · exact absurd h2.symm he
        · exact h2
      exact Nat.succ_lt_succ (posOf_lt hmem)

/-- `posOf` indexes back to the element. -/
theorem getElem_posOf {n : Nat} : ∀ {l : List Nat}, n ∈ l → l[posOf n l]? = some n
  | [], h => absurd h (List.not_mem_nil n)
  | m :: rest, h => by
    rw [posOf]
    by_cases he : m = n
    · rw [if_pos he]
      rw [List.getElem?_cons_zero, he]
    · rw [if_neg he]
      have hmem : n ∈ rest := by
        rcases List.mem_cons.mp h with h2 | h2
        · exact absurd h2.symm he
        · exact h2
      rw [List.getElem?_cons_succ]
      exact getElem_posOf hmem

/-- When the sorted bindings enumerate the rendering positions, the index
map is a permutation of the positions, hence a bijection. -/
theorem index_map_perm (e : Emit)
    (hperm : List.Perm (sortedBindings e) (List.range e.field_values.length)) :
    List.Perm (index_map e) (List.range e.field_values.length) := by
  have hmem : ∀ i, i ∈ List.range e.field_values.length → i ∈ sortedBindings e :=
    fun i hi => hperm.mem_iff.mpr hi
  have hlen : (sortedBindings e).length = e.field_values.length :=
    hperm.length_eq.trans (List.length_range _)
  have hinj : ∀ x ∈ List.range e.field_values.length,
      ∀ y ∈ List.range e.field_values.length,
      posOf x (sortedBindings e) = posOf y (sortedBindings e) → x = y := by
    intro x hx y hy hxy
    have h1 := getElem_posOf (hmem x hx)
    have h2 := getElem_posOf (hmem y hy)
    rw [hxy] at h1
    exact Option.some.inj (h1.symm.trans h2)
  have hnd2 : (index_map e).Nodup := by
    rw [index_map]
    exact (List.nodup_range _).map_on hinj
  have hsub : index_map e ⊆ List.range e.field_values.length := by
    intro j hj
    rcases List.mem_map.mp (by rwa [index_map] at hj) with ⟨i, hi, hij⟩
    rw [← hij]
    refine List.mem_range.mpr ?_
    have hl := posOf_lt (hmem i hi)
    rw [hlen] at hl
    exact hl
  refine (List.subperm_of_subset hnd2 hsub).perm_of_length_le ?_
  rw [index_map, List.length_map]

/-- C8: for every successfully constructed record, the sorted key list is
strictly ascending (hence all names distinct), it is a permutation of the
rendering-order field names, the sorted bindings enumerate the rendering
positions, the index map from rendering positions to sorted positions is a
bijection (a permutation of the positions), and each sorted entry points at
the rendering-order capture bearing its name. -/
theorem claim_c8 (t : Template) (e : Emit) (h : expand_tokens t = .ok e) :
    List.Pairwise (fun a b => strLt a b = true) (sortedKeys e) ∧
      List.Perm (sortedKeys e) (renderKeys e) ∧
      List.Perm (sortedBindings e) (List.range e.field_values.length) ∧
      List.Perm (index_map e) (List.range e.field_values.length) ∧
      (∀ p ∈ e.sorted_field_bindings,
        ∃ c, e.field_values[p.2]? = some c ∧ c.key = p.1) := by
  unfold expand_tokens at h
  cases hph : processHoles t.holes initState (collectExtras t.after) with
  | error e2 =>
    rw [hph] at h
    exact Except.noConfusion h
  | ok p =>
    obtain ⟨st1, rem⟩ := p
    simp only [hph] at h
    cases hpe : pushExtras rem st1 with
    | error e2 =>
      simp only [hpe] at h
      exact Except.noConfusion h
    | ok st2 =>
      simp only [hpe] at h
      have hinv0 : ∀ p ∈ collectExtras t.after, (p.2).key_name = p.1 :=
        collect_pred _ _ (fun fv _ => rfl)
      have hinv1 := processHoles_inv initState_inv hinv0 hph
      obtain ⟨_, _, hinvrem⟩ := processHoles_ok_shape hinv0 hph
      have hinv2 := pushExtras_inv hinv1 hinvrem hpe
      obtain ⟨hI1, hI2, hI3, hI4, hI5⟩ := hinv2
      have he : e = { field_values := st2.field_values
                    , field_bindings := st2.field_bindings
                    , sorted_field_bindings := st2.sorted_field_bindings
                    , target := targetOf t
                    , parts := t.parts } := (Except.ok.inj h).symm
      rw [he]
      refine ⟨?_, ?_, ?_, ?_, ?_⟩
      · exact List.Pairwise.map Prod.fst (fun a b hab => hab) hI2
      · exact hI5
      · exact hI4
      · exact index_map_perm _ hI4
      · exact hI3

/-- Witness for C8 at the expansion of `templateC1`. -/
theorem claim_c8_witness :
    expand_tokens templateC1 = .ok emitC1 ∧
      (List.Pairwise (fun a b => strLt a b = true) (sortedKeys emitC1) ∧
        List.Perm (sortedKeys emitC1) (renderKeys emitC1) ∧
        List.Perm (sortedBindings emitC1) (List.range emitC1.field_values.length) ∧
        List.Perm (index_map emitC1) (List.range emitC1.field_values.length) ∧
        (∀ p ∈ emitC1.sorted_field_bindings,
          ∃ c, emitC1.field_values[p.2]? = some c ∧ c.key = p.1)) :=
  ⟨rfl, claim_c8 templateC1 emitC1 rfl⟩

/-- C1: for the template `"Text and {b: 17} and {a} and {#[attr] c} and
{d: expr}"` with an extra entry for name `a`, resolution produces
rendering-order fields `[b, a, c, d]`, sorted-order fields `[a, b, c, d]`,
and an index map sending rendering position 0 to sorted position 1,
position 1 to 0, position 2 to 2 and position 3 to 3. -/
theorem claim_c1 :
    (expand_tokens templateC1).map (fun e => (renderKeys e, sortedKeys e, index_map e)) =
      .ok (["b", "a", "c", "d"], ["a", "b", "c", "d"], [1, 0, 2, 3]) := by
  rfl

/-- C2 counterexample: two extra entries sharing the name `a` do not make
record construction fail; the `BTreeMap` collection silently keeps the
later entry and a record is produced. -/
theorem claim_c2_counterexample :
    expand_tokens templateExtraDup = .ok emitExtraDup ∧
      (expand_tokens templateExtraDup).isOk = true := by
  exact ⟨rfl, rfl⟩

/-- C3 counterexample: with no holes and the extras supplied in the order
`b`, `a`, the unreferenced extras are appended in ascending name order
`[a, b]`, not in the original supply order `[b, a]`. -/
theorem claim_c3_counterexample :
    (expand_tokens templateExtrasOrder).map renderKeys = Except.ok ["a", "b"] ∧
      (["a", "b"] : List String) ≠ ["b", "a"] := by
  exact ⟨rfl, by decide⟩

/-- C4 counterexample: the template `"Text and {a}"` with no extras does
not fail; the bare hole resolves to a capture of the ambient binding `a`
and a record is produced. -/
theorem claim_c4_counterexample :
    (expand_tokens templateC4).isOk = true ∧
      expand_tokens templateC4 = .ok
        { field_values := [⟨[], "a", .path ["a"]⟩]
        , field_bindings := [0]
        , sorted_field_bindings := [("a", 0)]
        , target := none
        , parts := [.text "Text and ", .hole "a"] } := by
  exact ⟨rfl, rfl⟩

/-- C9 (evaluation at the failing input): for the invocation
`log, "Text and {a}", a: 42` (second case of the `expand_emit` test), the
code forwards the record with target `none`, because the before-template
field-value `log` does not have the key `target`; the in-file test expects
`Some(log)`. -/
theorem claim_c9_code :
    expand_tokens templateLog = .ok emitLog ∧ emitLog.target = none := by
  exact ⟨rfl, rfl⟩
